import Mathlib

/-!
Verification of the voice-sandwich pipeline server
(`components/typescript/src/index.ts`) and the order skills
(`components/typescript/src/agent/skills/order.ts`).

The stages of the pipeline are async generators over event streams; they
are embedded here as functions over finite lists of events.  Wall-clock
reads (`Date.now()`) and uuid generation (`uuidv4()`) are modelled by a
threaded counter state (`GenState`): each call returns the current counter
value and advances it, a valid instance of a monotone clock and of a fresh
identifier supply.  JavaScript numbers that the claims treat as plain
numbers (quantities) are modelled as `Int`.
-/

/-- The `VoiceAgentEvent` tagged union from `types.ts` as used by
`index.ts`: partial/final transcripts from the STT stage, response
chunks / tool events / turn markers from the agent stage, audio chunks
from the TTS stage.  Every variant carries the `ts` timestamp field. -/
inductive VoiceAgentEvent where
  | stt_chunk (text : String) (ts : Nat)
  | stt_output (transcript : String) (ts : Nat)
  | agent_chunk (text : String) (ts : Nat)
  | tool_call (id : String) (name : String) (args : String) (ts : Nat)
  | tool_result (toolCallId : String) (name : String) (result : String) (ts : Nat)
  | agent_end (ts : Nat)
  | tts_chunk (audio : List Nat) (ts : Nat)
deriving DecidableEq, Repr

/-- Test for the `agent_end` (turn-end) variant. -/
def isAgentEnd : VoiceAgentEvent → Bool
  | .agent_end _ => true
  | _ => false

/-- Test for the `stt_output` (final-transcript) variant. -/
def isSttOutput : VoiceAgentEvent → Bool
  | .stt_output _ _ => true
  | _ => false

/-- Test for events produced by the transcription stage (the only events
`sttStream` ever pushes downstream). -/
def isSttEvent : VoiceAgentEvent → Bool
  | .stt_chunk _ _ => true
  | .stt_output _ _ => true
  | _ => false

/-- Test for the `tool_call` variant. -/
def isToolCall : VoiceAgentEvent → Bool
  | .tool_call _ _ _ _ => true
  | _ => false

/-- A tool invocation intent attached to a streamed `AIMessage`
(`message.tool_calls` entries): name, arguments, and an optional id. -/
structure ToolCallData where
  id : Option String
  name : String
  args : String
deriving DecidableEq, Repr

/-- The parts of a streamed `AIMessage` that `agentStream` reads:
its `text` (possibly empty) and its optional `tool_calls` array. -/
structure AIMessageData where
  text : String
  tool_calls : Option (List ToolCallData)
deriving DecidableEq, Repr

/-- The parts of a streamed `ToolMessage` that `agentStream` reads:
`tool_call_id` and `name` may be absent, `content` is its string form. -/
structure ToolMessageData where
  tool_call_id : Option String
  name : Option String
  content : String
deriving DecidableEq, Repr

/-- One message yielded by the agent collaborator's stream.  Messages that
are neither `AIMessage` nor `ToolMessage` are ignored by `agentStream`. -/
inductive AgentMessage where
  | ai (m : AIMessageData)
  | tool (m : ToolMessageData)
  | other
deriving DecidableEq, Repr

/-- The observable behavior of one `agent.stream(...)` turn: the messages
successfully yielded, and whether the stream then raised an error instead
of completing normally (both the stream-creation await and mid-stream
iteration sit inside the same `try` block of `agentStream`). -/
structure AgentTurnStream where
  msgs : List AgentMessage
  errored : Bool

/-- The options object of the `agent.stream` call at `index.ts:198-203`:
the literal `{ streamMode: "messages" }`, which contains no
`configurable.thread_id` entry (modelled as the `thread_id` field). -/
structure AgentStreamConfig where
  streamMode : String
  thread_id : Option String
deriving DecidableEq, Repr

/-- The full payload of one `agent.stream` call: the messages array
(`[new HumanMessage(event.transcript)]`) and the options object. -/
structure AgentCall where
  messages : List String
  config : AgentStreamConfig
deriving DecidableEq, Repr

/-- The argument actually passed to `agent.stream` for a transcript, as
written at `index.ts:198-203`: only the transcript message and
`streamMode`; no thread identifier is included. -/
def agentTurnInvocation (transcript : String) : AgentCall :=
  { messages := [transcript], config := { streamMode := "messages", thread_id := none } }

/-- Counter state supplying `Date.now()` values (`now`) and `uuidv4()`
identifiers (`uuidCtr`); each call consumes and advances its counter. -/
structure GenState where
  now : Nat
  uuidCtr : Nat
deriving DecidableEq, Repr

/-- The identifier returned by the `n`-th call to `uuidv4()`. -/
def freshUuid (n : Nat) : String := "uuid:" ++ toString n

/-- JavaScript `String.prototype.toLowerCase`, modelled on the string's
character sequence. -/
def strLower (s : String) : String := ⟨s.data.map Char.toLower⟩

/-- JavaScript `String.prototype.trim`: whitespace removed from both
ends, modelled on the string's character sequence. -/
def strTrim (s : String) : String :=
  ⟨((s.data.dropWhile Char.isWhitespace).reverse.dropWhile Char.isWhitespace).reverse⟩

/-- The greeting alternatives of the regex at `index.ts:184`. -/
def greetingWords : List String :=
  ["hello", "hi", "hey", "good morning", "good afternoon", "good evening"]

/-- The test `/^(hello|hi|hey|good morning|good afternoon|good evening)\.?$/i`
applied to `transcript.trim()` (`index.ts:184-185`): the trimmed,
case-folded text is one of the alternatives, optionally followed by a
single dot. -/
def isGreeting (s : String) : Bool :=
  let t := strLower (strTrim s)
  greetingWords.any fun w => t == w || t == w ++ "."

/-- The fixed response text of the greeting fast path (`index.ts:189`). -/
def greetingResponse : String :=
  "Hi! Welcome to our sandwich shop. What size sandwich would you like? We have small, medium, or large."

/-- Events emitted for the `tool_calls` array of one `AIMessage`
(`index.ts:217-228`): one `tool_call` per intent, with
`id := toolCall.id ?? uuidv4()`. -/
def emitToolCalls (st : GenState) : List ToolCallData → List VoiceAgentEvent × GenState
  | [] => ([], st)
  | tc :: rest =>
    match tc.id with
    | some i =>
      let r := emitToolCalls { st with now := st.now + 1 } rest
      (VoiceAgentEvent.tool_call i tc.name tc.args st.now :: r.1, r.2)
    | none =>
      let r := emitToolCalls { st with now := st.now + 1, uuidCtr := st.uuidCtr + 1 } rest
      (VoiceAgentEvent.tool_call (freshUuid st.uuidCtr) tc.name tc.args st.now :: r.1, r.2)

/-- Events emitted for one streamed message (`index.ts:211-242`): an
`AIMessage` yields an `agent_chunk` when its text is non-empty (JS
truthiness) and a `tool_call` per intent; a `ToolMessage` yields one
`tool_result` with `toolCallId := message.tool_call_id ?? ""` and
`name := message.name ?? "unknown"`; other messages yield nothing. -/
def processMessage (st : GenState) : AgentMessage → List VoiceAgentEvent × GenState
  | .ai m =>
    let p :=
      if m.text ≠ "" then
        ([VoiceAgentEvent.agent_chunk m.text st.now], { st with now := st.now + 1 })
      else (([] : List VoiceAgentEvent), st)
    (match m.tool_calls with
     | some tcs =>
       let r := emitToolCalls p.2 tcs
       (p.1 ++ r.1, r.2)
     | none => p)
  | .tool m =>
    ([VoiceAgentEvent.tool_result (m.tool_call_id.getD "") (m.name.getD "unknown") m.content st.now],
     { st with now := st.now + 1 })
  | .other => ([], st)

/-- Events emitted by the `for await (const [message] of stream)` loop
over the whole of one turn's streamed messages. -/
def processMessages (st : GenState) : List AgentMessage → List VoiceAgentEvent × GenState
  | [] => ([], st)
  | m :: rest =>
    let p := processMessage st m
    let q := processMessages p.2 rest
    (p.1 ++ q.1, q.2)

/-- Events emitted for one `stt_output` transcript (`index.ts:183-252`):
the greeting fast path emits the fixed `agent_chunk` and an `agent_end`
without consulting the collaborator; otherwise the collaborator is
invoked via `agentTurnInvocation` and, on normal completion as on a
caught error, the streamed messages' events are followed by exactly one
`agent_end`. -/
def processTranscript (agentFn : AgentCall → AgentTurnStream) (st : GenState)
    (transcript : String) : List VoiceAgentEvent × GenState :=
  if isGreeting transcript then
    ([VoiceAgentEvent.agent_chunk greetingResponse st.now,
      VoiceAgentEvent.agent_end (st.now + 1)],
     { st with now := st.now + 2 })
  else
    let stream := agentFn (agentTurnInvocation transcript)
    let p := processMessages st stream.msgs
    (p.1 ++ [VoiceAgentEvent.agent_end p.2.now], { p.2 with now := p.2.now + 1 })

/-- Events emitted for one upstream event of `agentStream`
(`index.ts:178-254`): every event is re-emitted first (`yield event`);
an `stt_output` additionally triggers one turn. -/
def agentProcessEvent (agentFn : AgentCall → AgentTurnStream) (st : GenState)
    (e : VoiceAgentEvent) : List VoiceAgentEvent × GenState :=
  match e with
  | .stt_output transcript ts =>
    let p := processTranscript agentFn st transcript
    (VoiceAgentEvent.stt_output transcript ts :: p.1, p.2)
  | _ => ([e], st)

/-- The output sequence of the `agentStream` loop over its whole input,
with the per-session thread identifier in scope (it is generated at
`index.ts:176` but, see `agentTurnInvocation`, never used). -/
def agentStreamGo (agentFn : AgentCall → AgentTurnStream) (threadId : String)
    (st : GenState) : List VoiceAgentEvent → List VoiceAgentEvent
  | [] => []
  | e :: rest =>
    let p := agentProcessEvent agentFn st e
    p.1 ++ agentStreamGo agentFn threadId p.2 rest

/-- The full `agentStream` generator (`index.ts:170-255`): a thread id is
generated once per session, then the input is processed sequentially. -/
def agentStreamRun (agentFn : AgentCall → AgentTurnStream) (st : GenState)
    (input : List VoiceAgentEvent) : List VoiceAgentEvent :=
  let threadId := freshUuid st.uuidCtr
  agentStreamGo agentFn threadId { st with uuidCtr := st.uuidCtr + 1 } input

/-- The observable effects of the `ttsStream` producer task
(`index.ts:288-310`): the events it pushes into the passthrough queue,
the texts it sends to `tts.sendText`, and the buffer left at the end. -/
structure TTSProdResult where
  pushes : List VoiceAgentEvent
  sends : List String
  buffer : List String
deriving DecidableEq, Repr

/-- The `ttsStream` producer loop (`index.ts:290-305`): every event is
pushed through; an `agent_chunk`'s text is appended to the per-turn
buffer; an `agent_end` sends the joined buffer to the synthesizer and
resets the buffer to empty. -/
def ttsProducerRun (buffer : List String) : List VoiceAgentEvent → TTSProdResult
  | [] => ⟨[], [], buffer⟩
  | e :: rest =>
    match e with
    | .agent_chunk t _ =>
      let r := ttsProducerRun (buffer ++ [t]) rest
      ⟨e :: r.pushes, r.sends, r.buffer⟩
    | .agent_end _ =>
      let r := ttsProducerRun [] rest
      ⟨e :: r.pushes, String.join buffer :: r.sends, r.buffer⟩
    | _ =>
      let r := ttsProducerRun buffer rest
      ⟨e :: r.pushes, r.sends, r.buffer⟩

/-- The texts of the `agent_chunk` events of a list, in order. -/
def chunkTexts : List VoiceAgentEvent → List String
  | [] => []
  | .agent_chunk t _ :: rest => t :: chunkTexts rest
  | _ :: rest => chunkTexts rest

/-- An interleaving of two sequences: the merge order of two concurrent
producers pushing into one Event Queue, each producer's own order
preserved (spec §4.1: ordering is only guaranteed within a single
producer's own pushes). -/
inductive Interleaves : List VoiceAgentEvent → List VoiceAgentEvent → List VoiceAgentEvent → Prop where
  | nil : Interleaves [] [] []
  | left {x xs ys zs} : Interleaves xs ys zs → Interleaves (x :: xs) ys (x :: zs)
  | right {y xs ys zs} : Interleaves xs ys zs → Interleaves xs (y :: ys) (y :: zs)

/-- Turn-discipline scanner: `some pending` tracks whether a
`final-transcript`'s turn is still awaiting its `turn-end`; it fails
(`none`) when an `stt_output` is processed while a turn is pending or
when an `agent_end` appears with no turn pending.  An output satisfies
the exactly-one-turn-end discipline precisely when scanning from
`some false` ends in `some false`. -/
def turnScan : Option Bool → List VoiceAgentEvent → Option Bool
  | none, _ => none
  | some pending, [] => some pending
  | some pending, e :: rest =>
    if isSttOutput e then
      if pending then none else turnScan (some true) rest
    else if isAgentEnd e then
      if pending then turnScan (some false) rest else none
    else turnScan (some pending) rest

/-- Tool-pairing scanner: `some seen` carries the ids of the `tool_call`
events emitted so far in the current turn (reset at each `stt_output`);
it fails (`none`) at a `tool_result` whose call id does not match exactly
one of them. -/
def toolScan : Option (List String) → List VoiceAgentEvent → Option (List String)
  | none, _ => none
  | some seen, [] => some seen
  | some seen, e :: rest =>
    match e with
    | .stt_output _ _ => toolScan (some []) rest
    | .tool_call i _ _ _ => toolScan (some (seen ++ [i])) rest
    | .tool_result cid _ _ _ =>
      if seen.count cid == 1 then toolScan (some seen) rest else none
    | _ => toolScan (some seen) rest

/-- Collects the explicit ids of a message's tool invocation intents onto
an accumulator, failing when an intent has no id or repeats one. -/
def collectIds : List String → List ToolCallData → Option (List String)
  | ids, [] => some ids
  | ids, tc :: rest =>
    match tc.id with
    | some i => if ids.contains i then none else collectIds (ids ++ [i]) rest
    | none => none

/-- Well-formedness of a turn's streamed messages, relative to the ids
already introduced: every tool invocation intent carries an explicit,
not-yet-used id, and every tool result message names a call id that
matches exactly one previously introduced id. -/
def wellFormedMsgs : List String → List AgentMessage → Bool
  | _, [] => true
  | ids, .ai m :: rest =>
    (match m.tool_calls with
     | some tcs =>
       match collectIds ids tcs with
       | some ids' => wellFormedMsgs ids' rest
       | none => false
     | none => wellFormedMsgs ids rest)
  | ids, .tool m :: rest =>
    (match m.tool_call_id with
     | some cid => (ids.count cid == 1) && wellFormedMsgs ids rest
     | none => false)
  | ids, .other :: rest => wellFormedMsgs ids rest

/-- A WebSocket message's `event.data` as delivered by the transport:
a Node `Buffer`, an `ArrayBuffer`, a text frame, or a `Buffer[]`
fragment list. -/
inductive WSData where
  | buffer (bytes : List Nat)
  | arrayBuffer (bytes : List Nat)
  | text (s : String)
  | bufferArray (bs : List (List Nat))
deriving DecidableEq, Repr

/-- The session state the ingress handler can affect: the frames pushed
into the pipeline's input stream, and whether that stream was canceled. -/
structure IngressState where
  pushed : List (List Nat)
  canceled : Bool
deriving DecidableEq, Repr

/-- The `onMessage` handler (`index.ts:362-370`): a `Buffer` or an
`ArrayBuffer` is converted to a `Uint8Array` and pushed into the input
stream; any other frame kind falls through with no effect. -/
def onMessage (data : WSData) (s : IngressState) : IngressState :=
  match data with
  | .buffer b => { s with pushed := s.pushed ++ [b] }
  | .arrayBuffer b => { s with pushed := s.pushed ++ [b] }
  | _ => s

/-- The bytes of a frame in a recognized binary encoding, per the claim's
wording (a Node `Buffer` or an `ArrayBuffer`); `none` for every other
frame kind. -/
def frameBytes : WSData → Option (List Nat)
  | .buffer b => some b
  | .arrayBuffer b => some b
  | _ => none

/-- Modelled from the spec: operations on the Event Queue primitive
(`writableIterator` in `utils.ts`, which is not among the provided
sources); §4.1 gives its contract: `push` enqueues, `cancel` marks
end-of-stream. -/
inductive QueueOp where
  | push (e : VoiceAgentEvent)
  | cancel
deriving DecidableEq, Repr

/-- Modelled from the spec: per §4.1 the consumer of the queue observes
end-of-stream (after draining) exactly when `cancel()` has been
invoked, so a queue whose operation trace contains no `cancel` never
ends. -/
def queueReachesEnd (ops : List QueueOp) : Bool :=
  ops.any fun o => o == QueueOp.cancel

/-- Operations on the speech-recognizer vendor object. -/
inductive STTVendorOp where
  | sendAudio (chunk : List Nat)
  | close
deriving DecidableEq, Repr

/-- The recognizer-vendor operations of the `sttStream` producer task
(`index.ts:125-135`): each audio chunk is forwarded via `sendAudio`;
when the (canceled) input ends, the `finally` block calls `close`
once. -/
def sttProducerVendorOps (chunks : List (List Nat)) : List STTVendorOp :=
  chunks.map STTVendorOp.sendAudio ++ [STTVendorOp.close]

/-- The operations performed on `sttStream`'s passthrough queue
(`index.ts:143-147`): the consumer task pushes every recognizer event;
no task of `sttStream` ever calls `cancel` on the queue. -/
def sttPassthroughOps (recognizerEvents : List VoiceAgentEvent) : List QueueOp :=
  recognizerEvents.map QueueOp.push

/-- Whether the transcription stage's output sequence
(`yield* passthrough`, `index.ts:151`) ever reaches end-of-stream, given
the recognizer's events: per the queue contract this requires a `cancel`
in the queue's operation trace. -/
def sttOutputEnds (recognizerEvents : List VoiceAgentEvent) : Bool :=
  queueReachesEnd (sttPassthroughOps recognizerEvents)

/-- Whether the agent stage's output sequence ends: `agentStream` is a
single `for await` loop (`index.ts:178`), so its generator completes
exactly when its input sequence ends. -/
def agentOutputEnds (inputEnds : Bool) : Bool := inputEnds

/-- How many times `tts.close()` is invoked: it sits in the `finally`
block of the `ttsStream` producer (`index.ts:306-309`), reached exactly
when the producer's loop over the upstream sequence ends. -/
def ttsCloseCount (upstreamEnds : Bool) : Nat :=
  if upstreamEnds then 1 else 0

/-- One line of a customer's order
(`order.ts:10`): item name, quantity, optional size. -/
structure OrderItem where
  item : String
  quantity : Int
  size : Option String
deriving DecidableEq, Repr

/-- The `findIndex` callback of `addToOrder` (`order.ts:19-21`):
case-insensitive item match and strict size equality. -/
def matchesAdd (item : String) (size : Option String) (i : OrderItem) : Bool :=
  strLower i.item == strLower item && i.size == size

/-- The `add_to_order` tool body (`order.ts:12-31`) acting on one
customer's item list: the first line matching item (case-insensitively)
and size gets its quantity increased; otherwise a new line is pushed at
the end. -/
def addToOrder (items : List OrderItem) (item : String) (quantity : Int)
    (size : Option String) : List OrderItem :=
  match items.findIdx? (matchesAdd item size) with
  | some idx =>
    match items[idx]? with
    | some old => items.set idx { old with quantity := old.quantity + quantity }
    | none => items
  | none => items ++ [{ item := item, quantity := quantity, size := size }]

/-- The `findIndex` callback of `removeFromOrder` (`order.ts:52-54`):
case-insensitive item match, size ignored. -/
def matchesRemove (item : String) (i : OrderItem) : Bool :=
  strLower i.item == strLower item

/-- The `remove_from_order` tool body (`order.ts:44-62`) acting on the
customer's order entry (`none` when the map has no entry): an absent or
empty order is left untouched; otherwise the first line matching the
item case-insensitively is spliced out; with no match the order is
unchanged. -/
def removeFromOrder (order : Option (List OrderItem)) (item : String) :
    Option (List OrderItem) :=
  match order with
  | none => none
  | some items =>
    if items.length = 0 then some items
    else
      match items.findIdx? (matchesRemove item) with
      | some idx => some (items.eraseIdx idx)
      | none => some items

theorem set_append_cons {α : Type} (pre : List α) (x y : α) (post : List α) :
    (pre ++ x :: post).set pre.length y = pre ++ y :: post := by
  induction pre with
  | nil => rfl
  | cons a l ih => simp [List.set, ih]

theorem eraseIdx_append_cons {α : Type} (pre : List α) (x : α) (post : List α) :
    (pre ++ x :: post).eraseIdx pre.length = pre ++ post := by
  induction pre with
  | nil => rfl
  | cons a l ih => simp [List.eraseIdx, ih]

theorem getElem?_append_cons {α : Type} (pre : List α) (x : α) (post : List α) :
    (pre ++ x :: post)[pre.length]? = some x := by
  induction pre with
  | nil => simp
  | cons a l ih => simpa using ih

theorem findIdx?_decomp {α : Type} {p : α → Bool} {xs : List α} {idx : Nat}
    (h : xs.findIdx? p = some idx) :
    ∃ pre old post, xs = pre ++ old :: post ∧ pre.length = idx ∧
      (∀ y ∈ pre, p y = false) ∧ p old = true := by
  rw [List.findIdx?_eq_some_iff_getElem] at h
  obtain ⟨hlt, hpi, hprev⟩ := h
  refine ⟨xs.take idx, xs[idx], xs.drop (idx + 1), ?_, ?_, ?_, hpi⟩
  · conv_lhs => rw [← List.take_append_drop idx xs]
    rw [List.getElem_cons_drop]
  · simp [List.length_take, Nat.min_eq_left (le_of_lt hlt)]
  · intro y hy
    rw [List.mem_iff_getElem] at hy
    obtain ⟨j, hj, rfl⟩ := hy
    have hjlt : j < idx := by
      have h2 := hj
      simp [List.length_take] at h2
      exact h2.1
    have h3 := hprev j hjlt
    rw [List.getElem_take]
    simpa using h3

theorem addToOrder_eq_of_findIdx {items : List OrderItem} {item : String} {q : Int}
    {size : Option String} {idx : Nat} {old : OrderItem}
    (h : items.findIdx? (matchesAdd item size) = some idx)
    (h2 : items[idx]? = some old) :
    addToOrder items item q size = items.set idx { old with quantity := old.quantity + q } := by
  simp [addToOrder, h, h2]

/-- C9: `add_to_order` increases the quantity of the first line matching
the item (case-insensitively) and the size, adding no new line and
leaving all other lines unchanged; when no line matches, it appends a new
line at the end and leaves every existing line unchanged. -/
theorem addToOrder_correct (items : List OrderItem) (item : String) (q : Int)
    (size : Option String) :
    ((∃ i ∈ items, matchesAdd item size i = true) →
      ∃ pre old post, items = pre ++ old :: post ∧
        (∀ y ∈ pre, matchesAdd item size y = false) ∧
        matchesAdd item size old = true ∧
        addToOrder items item q size =
          pre ++ { old with quantity := old.quantity + q } :: post ∧
        (addToOrder items item q size).length = items.length) ∧
    ((∀ i ∈ items, matchesAdd item size i = false) →
      addToOrder items item q size =
        items ++ [{ item := item, quantity := q, size := size }]) := by
  constructor
  · rintro ⟨i, hi, hp⟩
    have hsome : (items.findIdx? (matchesAdd item size)).isSome = true := by
      rw [List.findIdx?_isSome]
      exact List.any_eq_true.mpr ⟨i, hi, hp⟩
    obtain ⟨idx, hidx⟩ := Option.isSome_iff_exists.mp hsome
    obtain ⟨pre, old, post, heq, hlen, hpre, hold⟩ := findIdx?_decomp hidx
    have hget : items[idx]? = some old := by
      rw [heq, ← hlen]
      exact getElem?_append_cons pre old post
    have hmain : addToOrder items item q size =
        pre ++ { old with quantity := old.quantity + q } :: post := by
      rw [addToOrder_eq_of_findIdx hidx hget, heq, ← hlen]
      exact set_append_cons pre old _ post
    refine ⟨pre, old, post, heq, hpre, hold, hmain, ?_⟩
    rw [hmain, heq]
    simp
  · intro hnone
    have h : items.findIdx? (matchesAdd item size) = none :=
      List.findIdx?_eq_none_iff.mpr hnone
    simp [addToOrder, h]

theorem addToOrder_correct_witness :
    (∃ pre old post,
       ([⟨"BLT", 1, some "small"⟩] : List OrderItem) = pre ++ old :: post ∧
       (∀ y ∈ pre, matchesAdd "blt" (some "small") y = false) ∧
       matchesAdd "blt" (some "small") old = true ∧
       addToOrder [⟨"BLT", 1, some "small"⟩] "blt" 2 (some "small") =
         pre ++ { old with quantity := old.quantity + 2 } :: post ∧
       (addToOrder [⟨"BLT", 1, some "small"⟩] "blt" 2 (some "small")).length =
         ([⟨"BLT", 1, some "small"⟩] : List OrderItem).length) ∧
    addToOrder [] "Turkey Club" 1 none = [] ++ [{ item := "Turkey Club", quantity := 1, size := none }] :=
  ⟨(addToOrder_correct [⟨"BLT", 1, some "small"⟩] "blt" 2 (some "small")).1
     ⟨⟨"BLT", 1, some "small"⟩, by decide, by decide⟩,
   (addToOrder_correct [] "Turkey Club" 1 none).2 (by decide)⟩

/-- C10: `remove_from_order` removes exactly the first line whose item
matches case-insensitively (size ignored), preserving all other lines and
their order; an absent order, an empty order, or an order with no
matching line is left entirely unchanged. -/
theorem removeFromOrder_correct (items : List OrderItem) (item : String) :
    ((∃ i ∈ items, matchesRemove item i = true) →
      ∃ pre old post, items = pre ++ old :: post ∧
        (∀ y ∈ pre, matchesRemove item y = false) ∧
        matchesRemove item old = true ∧
        removeFromOrder (some items) item = some (pre ++ post)) ∧
    ((∀ i ∈ items, matchesRemove item i = false) →
      removeFromOrder (some items) item = some items) ∧
    removeFromOrder none item = none := by
  refine ⟨?_, ?_, rfl⟩
  · rintro ⟨i, hi, hp⟩
    have hsome : (items.findIdx? (matchesRemove item)).isSome = true := by
      rw [List.findIdx?_isSome]
      exact List.any_eq_true.mpr ⟨i, hi, hp⟩
    obtain ⟨idx, hidx⟩ := Option.isSome_iff_exists.mp hsome
    obtain ⟨pre, old, post, heq, hlen, hpre, hold⟩ := findIdx?_decomp hidx
    have hne : items.length ≠ 0 := by
      rw [heq]
      simp
    have hmain : removeFromOrder (some items) item = some (pre ++ post) := by
      simp only [removeFromOrder, hne, if_false, hidx]
      rw [heq, ← hlen]
      rw [eraseIdx_append_cons pre old post]
    exact ⟨pre, old, post, heq, hpre, hold, hmain⟩
  · intro hnone
    have h : items.findIdx? (matchesRemove item) = none :=
      List.findIdx?_eq_none_iff.mpr hnone
    by_cases hlen : items.length = 0
    · simp [removeFromOrder, hlen]
    · simp [removeFromOrder, hlen, h]

theorem removeFromOrder_correct_witness :
    (∃ pre old post,
       ([⟨"chips", 1, none⟩, ⟨"BLT", 2, some "large"⟩] : List OrderItem) = pre ++ old :: post ∧
       (∀ y ∈ pre, matchesRemove "blt" y = false) ∧
       matchesRemove "blt" old = true ∧
       removeFromOrder (some [⟨"chips", 1, none⟩, ⟨"BLT", 2, some "large"⟩]) "blt" =
         some (pre ++ post)) ∧
    removeFromOrder (some [⟨"chips", 1, none⟩]) "soda" = some [⟨"chips", 1, none⟩] :=
  ⟨(removeFromOrder_correct [⟨"chips", 1, none⟩, ⟨"BLT", 2, some "large"⟩] "blt").1
     ⟨⟨"BLT", 2, some "large"⟩, by decide, by decide⟩,
   (removeFromOrder_correct [⟨"chips", 1, none⟩] "soda").2.1 (by decide)⟩

/-- C8: the ingress handler pushes a frame's bytes into the session's
input channel exactly when the frame is a recognized binary encoding
(a `Buffer` or an `ArrayBuffer`); every other frame kind is silently
dropped, leaving the session state entirely unchanged (no error is
raised and the input channel is not canceled). -/
theorem onMessage_correct (d : WSData) (s : IngressState) :
    (onMessage d s).canceled = s.canceled ∧
    (onMessage d s).pushed =
      s.pushed ++ (match frameBytes d with | some b => [b] | none => []) ∧
    (frameBytes d = none → onMessage d s = s) := by
  cases d <;> simp [onMessage, frameBytes]

theorem onMessage_correct_witness :
    onMessage (WSData.text "hi") ⟨[[9]], false⟩ = ⟨[[9]], false⟩ ∧
    (onMessage (WSData.buffer [1, 2]) ⟨[], false⟩).pushed = [[1, 2]] ∧
    (onMessage (WSData.buffer [1, 2]) ⟨[], false⟩).canceled = false :=
  ⟨(onMessage_correct (WSData.text "hi") ⟨[[9]], false⟩).2.2 rfl,
   by simpa using (onMessage_correct (WSData.buffer [1, 2]) ⟨[], false⟩).2.1,
   (onMessage_correct (WSData.buffer [1, 2]) ⟨[], false⟩).1⟩

theorem ttsProducerRun_sends_split (pre : List VoiceAgentEvent) (buf : List String)
    (ts : Nat) (rest : List VoiceAgentEvent) (h : ∀ e ∈ pre, isAgentEnd e = false) :
    (ttsProducerRun buf (pre ++ VoiceAgentEvent.agent_end ts :: rest)).sends
      = String.join (buf ++ chunkTexts pre) :: (ttsProducerRun [] rest).sends := by
  induction pre generalizing buf with
  | nil => simp [ttsProducerRun, chunkTexts]
  | cons e pre ih =>
    have he : isAgentEnd e = false := h e (List.mem_cons_self e pre)
    have hrest : ∀ e ∈ pre, isAgentEnd e = false := fun x hx => h x (List.mem_cons_of_mem e hx)
    cases e with
    | agent_chunk t ets =>
      have := ih (buf ++ [t]) hrest
      simpa [ttsProducerRun, chunkTexts, List.append_assoc] using this
    | agent_end ets => simp [isAgentEnd] at he
    | stt_chunk t ets => simpa [ttsProducerRun, chunkTexts] using ih buf hrest
    | stt_output t ets => simpa [ttsProducerRun, chunkTexts] using ih buf hrest
    | tool_call a b c d => simpa [ttsProducerRun, chunkTexts] using ih buf hrest
    | tool_result a b c d => simpa [ttsProducerRun, chunkTexts] using ih buf hrest
    | tts_chunk a b => simpa [ttsProducerRun, chunkTexts] using ih buf hrest

theorem ttsProducerRun_sends_length (buf : List String) (evs : List VoiceAgentEvent) :
    (ttsProducerRun buf evs).sends.length = evs.countP isAgentEnd := by
  induction evs generalizing buf with
  | nil => simp [ttsProducerRun]
  | cons e rest ih =>
    cases e <;> simp [ttsProducerRun, List.countP_cons, isAgentEnd, ih]

/-- C2: the text sent to the synthesizer at each `turn-end` is the
ordered concatenation of the `response-chunk` texts received since the
previous `turn-end` (or session start): on input `pre ++ turn-end ++ rest`
with no `turn-end` in `pre`, the first send is the join of `pre`'s chunk
texts (made even when there are none), and the remaining sends restart
from an empty buffer on `rest`; the number of sends always equals the
number of `turn-end` events. -/
theorem ttsStream_accumulation (pre rest : List VoiceAgentEvent) (ts : Nat)
    (h : ∀ e ∈ pre, isAgentEnd e = false) :
    (ttsProducerRun [] (pre ++ VoiceAgentEvent.agent_end ts :: rest)).sends
      = String.join (chunkTexts pre) :: (ttsProducerRun [] rest).sends ∧
    ∀ evs : List VoiceAgentEvent,
      (ttsProducerRun [] evs).sends.length = evs.countP isAgentEnd := by
  constructor
  · simpa using ttsProducerRun_sends_split pre [] ts rest h
  · exact fun evs => ttsProducerRun_sends_length [] evs

theorem ttsStream_accumulation_witness :
    (ttsProducerRun [] ([VoiceAgentEvent.agent_chunk "Hi " 0, VoiceAgentEvent.stt_chunk "x" 1,
        VoiceAgentEvent.agent_chunk "there" 2] ++
        VoiceAgentEvent.agent_end 3 :: [VoiceAgentEvent.agent_end 9])).sends
      = String.join (chunkTexts [VoiceAgentEvent.agent_chunk "Hi " 0,
          VoiceAgentEvent.stt_chunk "x" 1, VoiceAgentEvent.agent_chunk "there" 2]) ::
        (ttsProducerRun [] [VoiceAgentEvent.agent_end 9]).sends ∧
    (ttsProducerRun [] (([] : List VoiceAgentEvent) ++
        VoiceAgentEvent.agent_end 0 :: [])).sends
      = String.join (chunkTexts []) :: (ttsProducerRun [] []).sends :=
  ⟨(ttsStream_accumulation [VoiceAgentEvent.agent_chunk "Hi " 0, VoiceAgentEvent.stt_chunk "x" 1,
      VoiceAgentEvent.agent_chunk "there" 2] [VoiceAgentEvent.agent_end 9] 3 (by decide)).1,
   (ttsStream_accumulation [] [] 0 (by decide)).1⟩

theorem ttsProducerRun_pushes (buf : List String) (input : List VoiceAgentEvent) :
    (ttsProducerRun buf input).pushes = input := by
  induction input generalizing buf with
  | nil => simp [ttsProducerRun]
  | cons e rest ih => cases e <;> simp [ttsProducerRun, ih]

theorem interleaves_sublist_left {xs ys zs : List VoiceAgentEvent}
    (h : Interleaves xs ys zs) : xs.Sublist zs := by
  induction h with
  | nil => exact List.Sublist.refl []
  | left _ ih => exact ih.cons₂ _
  | right _ ih => exact ih.cons _

theorem agentStreamGo_sublist (f : AgentCall → AgentTurnStream) (tid : String)
    (input : List VoiceAgentEvent) : ∀ st : GenState,
    input.Sublist (agentStreamGo f tid st input) := by
  induction input with
  | nil => intro st; simp [agentStreamGo]
  | cons e rest ih =>
    intro st
    cases e with
    | stt_output t ts =>
      simp only [agentStreamGo, agentProcessEvent, List.cons_append]
      exact List.Sublist.cons₂ (VoiceAgentEvent.stt_output t ts)
        ((ih _).trans (List.sublist_append_right _ _))
    | stt_chunk t ts =>
      simpa [agentStreamGo, agentProcessEvent] using
        List.Sublist.cons₂ (VoiceAgentEvent.stt_chunk t ts) (ih st)
    | agent_chunk t ts =>
      simpa [agentStreamGo, agentProcessEvent] using
        List.Sublist.cons₂ (VoiceAgentEvent.agent_chunk t ts) (ih st)
    | tool_call a b c d =>
      simpa [agentStreamGo, agentProcessEvent] using
        List.Sublist.cons₂ (VoiceAgentEvent.tool_call a b c d) (ih st)
    | tool_result a b c d =>
      simpa [agentStreamGo, agentProcessEvent] using
        List.Sublist.cons₂ (VoiceAgentEvent.tool_result a b c d) (ih st)
    | agent_end ts =>
      simpa [agentStreamGo, agentProcessEvent] using
        List.Sublist.cons₂ (VoiceAgentEvent.agent_end ts) (ih st)
    | tts_chunk a b =>
      simpa [agentStreamGo, agentProcessEvent] using
        List.Sublist.cons₂ (VoiceAgentEvent.tts_chunk a b) (ih st)

/-- C7: the Agent and Synthesis Stages are event-preserving.  The agent
stage's output contains its whole input as a subsequence (every upstream
event re-emitted, in upstream order, interleaved with generated events);
the synthesis stage's producer pushes every upstream event, in order,
into the stage's queue, so any queue merge of those pushes with the
synthesizer's own events again contains the upstream input as a
subsequence. -/
theorem stage_passthrough :
    (∀ (f : AgentCall → AgentTurnStream) (st : GenState) (input : List VoiceAgentEvent),
       input.Sublist (agentStreamRun f st input)) ∧
    (∀ input : List VoiceAgentEvent, (ttsProducerRun [] input).pushes = input) ∧
    (∀ input ttsEvents out : List VoiceAgentEvent,
       Interleaves (ttsProducerRun [] input).pushes ttsEvents out → input.Sublist out) := by
  refine ⟨?_, ?_, ?_⟩
  · intro f st input
    exact agentStreamGo_sublist f _ input _
  · intro input
    exact ttsProducerRun_pushes [] input
  · intro input ttsEvents out h
    have h2 := interleaves_sublist_left h
    rwa [ttsProducerRun_pushes] at h2

theorem stage_passthrough_witness :
    [VoiceAgentEvent.agent_chunk "ok" 0].Sublist
      [VoiceAgentEvent.tts_chunk [7] 1, VoiceAgentEvent.agent_chunk "ok" 0] ∧
    [VoiceAgentEvent.stt_chunk "he" 0].Sublist
      (agentStreamRun (fun _ => ⟨[], false⟩) ⟨0, 0⟩ [VoiceAgentEvent.stt_chunk "he" 0]) :=
  ⟨stage_passthrough.2.2 [VoiceAgentEvent.agent_chunk "ok" 0] [VoiceAgentEvent.tts_chunk [7] 1]
     [VoiceAgentEvent.tts_chunk [7] 1, VoiceAgentEvent.agent_chunk "ok" 0]
     (Interleaves.right (Interleaves.left Interleaves.nil)),
   stage_passthrough.1 (fun _ => ⟨[], false⟩) ⟨0, 0⟩ [VoiceAgentEvent.stt_chunk "he" 0]⟩

theorem turnScan_none (l : List VoiceAgentEvent) : turnScan none l = none := by
  cases l <;> rfl

theorem turnScan_append (s : Option Bool) (xs ys : List VoiceAgentEvent) :
    turnScan s (xs ++ ys) = turnScan (turnScan s xs) ys := by
  induction xs generalizing s with
  | nil => cases s <;> simp [turnScan, turnScan_none]
  | cons e rest ih =>
    cases s with
    | none => simp [turnScan_none]
    | some pending =>
      simp only [List.cons_append, turnScan]
      split_ifs <;> simp [ih, turnScan_none]

theorem turnScan_neutral (evs : List VoiceAgentEvent) (b : Bool)
    (h : ∀ e ∈ evs, isSttOutput e = false ∧ isAgentEnd e = false) :
    turnScan (some b) evs = some b := by
  induction evs with
  | nil => rfl
  | cons e rest ih =>
    have he := h e (List.mem_cons_self e rest)
    simp only [turnScan, he.1, he.2, Bool.false_eq_true, if_false]
    exact ih fun x hx => h x (List.mem_cons_of_mem e hx)

theorem emitToolCalls_markers (tcs : List ToolCallData) : ∀ st : GenState,
    ∀ e ∈ (emitToolCalls st tcs).1, isSttOutput e = false ∧ isAgentEnd e = false := by
  induction tcs with
  | nil => intro st e he; simp [emitToolCalls] at he
  | cons tc rest ih =>
    intro st e he
    cases htc : tc.id with
    | some i =>
      simp only [emitToolCalls, htc] at he
      rcases List.mem_cons.mp he with rfl | he2
      · exact ⟨rfl, rfl⟩
      · exact ih _ e he2
    | none =>
      simp only [emitToolCalls, htc] at he
      rcases List.mem_cons.mp he with rfl | he2
      · exact ⟨rfl, rfl⟩
      · exact ih _ e he2

theorem processMessage_markers (m : AgentMessage) : ∀ st : GenState,
    ∀ e ∈ (processMessage st m).1, isSttOutput e = false ∧ isAgentEnd e = false := by
  cases m with
  | ai m =>
    intro st e he
    simp only [processMessage] at he
    cases htc : m.tool_calls with
    | some tcs =>
      rw [htc] at he
      simp only [List.mem_append] at he
      rcases he with he | he
      · by_cases ht : m.text = "" <;> simp [ht] at he
        · cases he
          exact ⟨rfl, rfl⟩
      · exact emitToolCalls_markers tcs _ e he
    | none =>
      rw [htc] at he
      by_cases ht : m.text = "" <;> simp [ht] at he
      · cases he
        exact ⟨rfl, rfl⟩
  | tool m =>
    intro st e he
    simp only [processMessage, List.mem_singleton] at he
    cases he
    exact ⟨rfl, rfl⟩
  | other =>
    intro st e he
    simp [processMessage] at he

theorem processMessages_markers (msgs : List AgentMessage) : ∀ st : GenState,
    ∀ e ∈ (processMessages st msgs).1, isSttOutput e = false ∧ isAgentEnd e = false := by
  induction msgs with
  | nil => intro st e he; simp [processMessages] at he
  | cons m rest ih =>
    intro st e he
    simp only [processMessages, List.mem_append] at he
    rcases he with he | he
    · exact processMessage_markers m _ e he
    · exact ih _ e he

theorem turnScan_processTranscript (f : AgentCall → AgentTurnStream) (st : GenState)
    (t : String) : turnScan (some true) (processTranscript f st t).1 = some false := by
  by_cases hg : isGreeting t
  · simp only [processTranscript, hg, if_true]
    rfl
  · simp only [processTranscript, hg, Bool.false_eq_true, if_false]
    rw [turnScan_append, turnScan_neutral _ true (processMessages_markers _ _)]
    rfl

theorem countP_processTranscript (f : AgentCall → AgentTurnStream) (st : GenState)
    (t : String) :
    ((processTranscript f st t).1).countP isAgentEnd = 1 ∧
    ((processTranscript f st t).1).countP isSttOutput = 0 := by
  by_cases hg : isGreeting t
  · simp [processTranscript, hg, List.countP_cons, isAgentEnd, isSttOutput]
  · have hm := processMessages_markers (f (agentTurnInvocation t)).msgs st
    constructor
    · simp only [processTranscript, hg, Bool.false_eq_true, if_false, List.countP_append]
      rw [List.countP_eq_zero.mpr fun e he => by simp [(hm e he).2]]
      simp [List.countP_cons, isAgentEnd]
    · simp only [processTranscript, hg, Bool.false_eq_true, if_false, List.countP_append]
      rw [List.countP_eq_zero.mpr fun e he => by simp [(hm e he).1]]
      simp [List.countP_cons, isSttOutput]

theorem agentStreamGo_turnScan (f : AgentCall → AgentTurnStream) (tid : String)
    (input : List VoiceAgentEvent) : ∀ st : GenState,
    (∀ e ∈ input, isAgentEnd e = false) →
    turnScan (some false) (agentStreamGo f tid st input) = some false := by
  induction input with
  | nil => intro st _; rfl
  | cons e rest ih =>
    intro st h
    have hrest : ∀ x ∈ rest, isAgentEnd x = false :=
      fun x hx => h x (List.mem_cons_of_mem e hx)
    have he : isAgentEnd e = false := h e (List.mem_cons_self e rest)
    cases e with
    | stt_output t ts =>
      simp only [agentStreamGo, agentProcessEvent]
      rw [List.cons_append, ← List.cons_append]
      rw [turnScan_append]
      have hblock : turnScan (some false)
          (VoiceAgentEvent.stt_output t ts :: (processTranscript f st t).1) = some false := by
        simp only [turnScan, isSttOutput, if_true]
        exact turnScan_processTranscript f st t
      rw [hblock]
      exact ih _ hrest
    | stt_chunk t ts =>
      simp only [agentStreamGo, agentProcessEvent, List.singleton_append]
      simp only [turnScan, isSttOutput, isAgentEnd, Bool.false_eq_true, if_false]
      exact ih _ hrest
    | agent_chunk t ts =>
      simp only [agentStreamGo, agentProcessEvent, List.singleton_append]
      simp only [turnScan, isSttOutput, isAgentEnd, Bool.false_eq_true, if_false]
      exact ih _ hrest
    | tool_call a b c d =>
      simp only [agentStreamGo, agentProcessEvent, List.singleton_append]
      simp only [turnScan, isSttOutput, isAgentEnd, Bool.false_eq_true, if_false]
      exact ih _ hrest
    | tool_result a b c d =>
      simp only [agentStreamGo, agentProcessEvent, List.singleton_append]
      simp only [turnScan, isSttOutput, isAgentEnd, Bool.false_eq_true, if_false]
      exact ih _ hrest
    | agent_end ts => simp [isAgentEnd] at he
    | tts_chunk a b =>
      simp only [agentStreamGo, agentProcessEvent, List.singleton_append]
      simp only [turnScan, isSttOutput, isAgentEnd, Bool.false_eq_true, if_false]
      exact ih _ hrest

theorem agentStreamGo_countP (f : AgentCall → AgentTurnStream) (tid : String)
    (input : List VoiceAgentEvent) : ∀ st : GenState,
    (∀ e ∈ input, isAgentEnd e = false) →
    (agentStreamGo f tid st input).countP isAgentEnd = input.countP isSttOutput := by
  induction input with
  | nil => intro st _; rfl
  | cons e rest ih =>
    intro st h
    have hrest : ∀ x ∈ rest, isAgentEnd x = false :=
      fun x hx => h x (List.mem_cons_of_mem e hx)
    have he : isAgentEnd e = false := h e (List.mem_cons_self e rest)
    cases e with
    | stt_output t ts =>
      simp only [agentStreamGo, agentProcessEvent, List.countP_append, List.countP_cons,
        List.cons_append]
      rw [ih _ hrest, (countP_processTranscript f st t).1]
      simp [isAgentEnd, isSttOutput]
      omega
    | agent_end ts => simp [isAgentEnd] at he
    | stt_chunk t ts =>
      simp only [agentStreamGo, agentProcessEvent, List.singleton_append, List.countP_cons]
      rw [ih _ hrest]
      simp [isAgentEnd, isSttOutput]
    | agent_chunk t ts =>
      simp only [agentStreamGo, agentProcessEvent, List.singleton_append, List.countP_cons]
      rw [ih _ hrest]
      simp [isAgentEnd, isSttOutput]
    | tool_call a b c d =>
      simp only [agentStreamGo, agentProcessEvent, List.singleton_append, List.countP_cons]
      rw [ih _ hrest]
      simp [isAgentEnd, isSttOutput]
    | tool_result a b c d =>
      simp only [agentStreamGo, agentProcessEvent, List.singleton_append, List.countP_cons]
      rw [ih _ hrest]
      simp [isAgentEnd, isSttOutput]
    | tts_chunk a b =>
      simp only [agentStreamGo, agentProcessEvent, List.singleton_append, List.countP_cons]
      rw [ih _ hrest]
      simp [isAgentEnd, isSttOutput]

theorem agentStreamGo_msgs_determined (f g : AgentCall → AgentTurnStream)
    (hfg : ∀ c, (g c).msgs = (f c).msgs) (tid : String)
    (input : List VoiceAgentEvent) : ∀ st : GenState,
    agentStreamGo g tid st input = agentStreamGo f tid st input := by
  induction input with
  | nil => intro st; rfl
  | cons e rest ih =>
    intro st
    have hpe : agentProcessEvent g st e = agentProcessEvent f st e := by
      cases e with
      | stt_output t ts => simp [agentProcessEvent, processTranscript, hfg]
      | stt_chunk t ts => rfl
      | agent_chunk t ts => rfl
      | tool_call a b c d => rfl
      | tool_result a b c d => rfl
      | agent_end ts => rfl
      | tts_chunk a b => rfl
    simp only [agentStreamGo, hpe, ih]

/-- C1: with only transcription events upstream, the agent stage's output
observes the turn discipline — each `stt_output` is processed with no
turn pending and is answered by exactly one `agent_end` before the next
`stt_output` (the `turnScan` invariant), the total number of `agent_end`
events equals the number of `stt_output` events, and the output is the
same whether each collaborator turn completes normally or raises a caught
error (it depends only on the messages yielded, never on the error
flag). -/
theorem agentStream_turn_discipline (f : AgentCall → AgentTurnStream) (st : GenState)
    (input : List VoiceAgentEvent) (h : ∀ e ∈ input, isAgentEnd e = false) :
    turnScan (some false) (agentStreamRun f st input) = some false ∧
    (agentStreamRun f st input).countP isAgentEnd = input.countP isSttOutput ∧
    ∀ g : AgentCall → AgentTurnStream, (∀ c, (g c).msgs = (f c).msgs) →
      agentStreamRun g st input = agentStreamRun f st input := by
  refine ⟨?_, ?_, ?_⟩
  · exact agentStreamGo_turnScan f _ input _ h
  · exact agentStreamGo_countP f _ input _ h
  · intro g hfg
    exact agentStreamGo_msgs_determined f g hfg _ input _

theorem agentStream_turn_discipline_witness :
    turnScan (some false)
      (agentStreamRun (fun _ => ⟨[AgentMessage.ai ⟨"Sure", none⟩], false⟩) ⟨0, 0⟩
        [VoiceAgentEvent.stt_output "what size" 0, VoiceAgentEvent.stt_chunk "ok" 1])
      = some false ∧
    agentStreamRun (fun _ => ⟨[AgentMessage.ai ⟨"Sure", none⟩], true⟩) ⟨0, 0⟩
        [VoiceAgentEvent.stt_output "what size" 0, VoiceAgentEvent.stt_chunk "ok" 1]
      = agentStreamRun (fun _ => ⟨[AgentMessage.ai ⟨"Sure", none⟩], false⟩) ⟨0, 0⟩
        [VoiceAgentEvent.stt_output "what size" 0, VoiceAgentEvent.stt_chunk "ok" 1] :=
  ⟨(agentStream_turn_discipline (fun _ => ⟨[AgentMessage.ai ⟨"Sure", none⟩], false⟩) ⟨0, 0⟩
      [VoiceAgentEvent.stt_output "what size" 0, VoiceAgentEvent.stt_chunk "ok" 1]
      (by decide)).1,
   (agentStream_turn_discipline (fun _ => ⟨[AgentMessage.ai ⟨"Sure", none⟩], false⟩) ⟨0, 0⟩
      [VoiceAgentEvent.stt_output "what size" 0, VoiceAgentEvent.stt_chunk "ok" 1]
      (by decide)).2.2 _ (fun c => rfl)⟩

/-- C3: a `final-transcript` whose text passes the greeting test yields
exactly the re-emitted transcript, one `response-chunk` with the fixed
greeting text, and one `turn-end`; no `tool-call` is emitted and the
agent collaborator is never consulted (the result is identical for every
collaborator). -/
theorem greeting_fast_path (f : AgentCall → AgentTurnStream) (st : GenState)
    (t : String) (ts : Nat) (h : isGreeting t = true) :
    agentProcessEvent f st (VoiceAgentEvent.stt_output t ts)
      = ([VoiceAgentEvent.stt_output t ts,
          VoiceAgentEvent.agent_chunk greetingResponse st.now,
          VoiceAgentEvent.agent_end (st.now + 1)],
         { st with now := st.now + 2 }) ∧
    (∀ g : AgentCall → AgentTurnStream,
       agentProcessEvent g st (VoiceAgentEvent.stt_output t ts)
         = agentProcessEvent f st (VoiceAgentEvent.stt_output t ts)) ∧
    (agentProcessEvent f st (VoiceAgentEvent.stt_output t ts)).1.countP isToolCall = 0 := by
  have hmain : ∀ g : AgentCall → AgentTurnStream,
      agentProcessEvent g st (VoiceAgentEvent.stt_output t ts)
        = ([VoiceAgentEvent.stt_output t ts,
            VoiceAgentEvent.agent_chunk greetingResponse st.now,
            VoiceAgentEvent.agent_end (st.now + 1)],
           { st with now := st.now + 2 }) := by
    intro g
    simp [agentProcessEvent, processTranscript, h]
  refine ⟨hmain f, fun g => (hmain g).trans (hmain f).symm, ?_⟩
  rw [hmain f]
  simp [List.countP_cons, isToolCall]

theorem greeting_fast_path_witness :
    agentProcessEvent (fun _ => ⟨[AgentMessage.other], true⟩) ⟨3, 0⟩
        (VoiceAgentEvent.stt_output " Good Morning. " 5)
      = ([VoiceAgentEvent.stt_output " Good Morning. " 5,
          VoiceAgentEvent.agent_chunk greetingResponse 3,
          VoiceAgentEvent.agent_end 4],
         ⟨5, 0⟩) ∧
    (agentProcessEvent (fun _ => ⟨[AgentMessage.other], true⟩) ⟨3, 0⟩
        (VoiceAgentEvent.stt_output " Good Morning. " 5)).1.countP isToolCall = 0 :=
  ⟨(greeting_fast_path (fun _ => ⟨[AgentMessage.other], true⟩) ⟨3, 0⟩
      " Good Morning. " 5 (by decide)).1,
   (greeting_fast_path (fun _ => ⟨[AgentMessage.other], true⟩) ⟨3, 0⟩
      " Good Morning. " 5 (by decide)).2.2⟩

/-- C4: the claim fails on the code — the turn invocation built at
`index.ts:198-203` for a non-greeting transcript carries the transcript
text but no thread identifier at all: its configuration's `thread_id`
entry is absent, in particular never equal to the session thread id
generated (and then never used) at `index.ts:176`. -/
theorem agent_thread_id_not_passed :
    isGreeting "what sandwiches do you have" = false ∧
    agentTurnInvocation "what sandwiches do you have"
      = { messages := ["what sandwiches do you have"],
          config := { streamMode := "messages", thread_id := none } } ∧
    (agentTurnInvocation "what sandwiches do you have").config.thread_id
      ≠ some (freshUuid 0) := by
  exact ⟨by decide, rfl, by decide⟩

theorem toolScan_none (l : List VoiceAgentEvent) : toolScan none l = none := by
  cases l <;> rfl

theorem toolScan_append (s : Option (List String)) (xs ys : List VoiceAgentEvent) :
    toolScan s (xs ++ ys) = toolScan (toolScan s xs) ys := by
  induction xs generalizing s with
  | nil => cases s <;> rfl
  | cons e rest ih =>
    cases s with
    | none => simp [toolScan_none]
    | some seen =>
      cases e with
      | stt_output t ts => simp only [List.cons_append, toolScan]; exact ih _
      | stt_chunk t ts => simp only [List.cons_append, toolScan]; exact ih _
      | agent_chunk t ts => simp only [List.cons_append, toolScan]; exact ih _
      | agent_end ts => simp only [List.cons_append, toolScan]; exact ih _
      | tts_chunk a b => simp only [List.cons_append, toolScan]; exact ih _
      | tool_call i n a ts => simp only [List.cons_append, toolScan]; exact ih _
      | tool_result cid n r ts =>
        simp only [List.cons_append, toolScan]
        split_ifs with h
        · exact ih _
        · simp [toolScan_none]

theorem toolScan_emitToolCalls (tcs : List ToolCallData) : ∀ (ids ids2 : List String)
    (st : GenState), collectIds ids tcs = some ids2 →
    toolScan (some ids) (emitToolCalls st tcs).1 = some ids2 := by
  induction tcs with
  | nil =>
    intro ids ids2 st h
    simp only [collectIds, Option.some.injEq] at h
    simp [emitToolCalls, toolScan, h]
  | cons tc rest ih =>
    intro ids ids2 st h
    cases htc : tc.id with
    | some i =>
      simp only [collectIds, htc] at h
      split at h
      · exact Option.noConfusion h
      · simp only [emitToolCalls, htc, toolScan]
        exact ih _ _ _ h
    | none => simp [collectIds, htc] at h

theorem toolScan_processMessage (m : AgentMessage) (ids : List String) (st : GenState)
    (h : wellFormedMsgs ids [m] = true) :
    ∃ ids2, toolScan (some ids) (processMessage st m).1 = some ids2 ∧
      ∀ rest, wellFormedMsgs ids (m :: rest) = true → wellFormedMsgs ids2 rest = true := by
  cases m with
  | ai mm =>
    cases htc : mm.tool_calls with
    | some tcs =>
      simp only [wellFormedMsgs, htc] at h
      cases hci : collectIds ids tcs with
      | some ids2 =>
        refine ⟨ids2, ?_, ?_⟩
        · simp only [processMessage, htc]
          rw [toolScan_append]
          have hp : toolScan (some ids)
              (if mm.text ≠ "" then
                ([VoiceAgentEvent.agent_chunk mm.text st.now], { st with now := st.now + 1 })
              else (([] : List VoiceAgentEvent), st)).1 = some ids := by
            by_cases ht : mm.text = "" <;> simp [ht, toolScan]
          rw [hp]
          exact toolScan_emitToolCalls tcs ids ids2 _ hci
        · intro rest hr
          simp only [wellFormedMsgs, htc, hci] at hr
          exact hr
      | none => rw [hci] at h; simp at h
    | none =>
      refine ⟨ids, ?_, ?_⟩
      · simp only [processMessage, htc]
        by_cases ht : mm.text = "" <;> simp [ht, toolScan]
      · intro rest hr
        simp only [wellFormedMsgs, htc] at hr
        exact hr
  | tool mm =>
    cases hid : mm.tool_call_id with
    | some cid =>
      simp only [wellFormedMsgs, hid, Bool.and_eq_true] at h
      refine ⟨ids, ?_, ?_⟩
      · simp only [processMessage, hid, Option.getD_some, toolScan, h.1, if_true]
      · intro rest hr
        simp only [wellFormedMsgs, hid, Bool.and_eq_true] at hr
        exact hr.2
    | none => simp [wellFormedMsgs, hid] at h
  | other =>
    refine ⟨ids, rfl, ?_⟩
    intro rest hr
    simpa [wellFormedMsgs] using hr

theorem toolScan_processMessages (msgs : List AgentMessage) : ∀ (ids : List String)
    (st : GenState), wellFormedMsgs ids msgs = true →
    ∃ ids2, toolScan (some ids) (processMessages st msgs).1 = some ids2 := by
  induction msgs with
  | nil => intro ids st _; exact ⟨ids, rfl⟩
  | cons m rest ih =>
    intro ids st h
    have hm : wellFormedMsgs ids [m] = true := by
      cases m with
      | ai mm =>
        cases htc : mm.tool_calls with
        | some tcs =>
          simp only [wellFormedMsgs, htc] at h ⊢
          cases hci : collectIds ids tcs with
          | some ids2 => simp [wellFormedMsgs]
          | none => rw [hci] at h; simp at h
        | none => simp [wellFormedMsgs, htc]
      | tool mm =>
        cases hid : mm.tool_call_id with
        | some cid =>
          simp only [wellFormedMsgs, hid, Bool.and_eq_true] at h ⊢
          refine ⟨h.1, ?_⟩
          simp [wellFormedMsgs]
        | none => simp [wellFormedMsgs, hid] at h
      | other => simp [wellFormedMsgs]
    obtain ⟨ids2, hscan, hnext⟩ := toolScan_processMessage m ids st hm
    obtain ⟨ids3, hscan3⟩ := ih ids2 _ (hnext rest h)
    refine ⟨ids3, ?_⟩
    simp only [processMessages, toolScan_append, hscan]
    exact hscan3

theorem toolScan_turn (f : AgentCall → AgentTurnStream)
    (h2 : ∀ c, wellFormedMsgs [] (f c).msgs = true) (t : String) (ts : Nat)
    (st : GenState) (seen : List String) :
    ∃ ids2, toolScan (some seen)
      ((agentProcessEvent f st (VoiceAgentEvent.stt_output t ts)).1) = some ids2 := by
  have hstep : ∀ (s : List String) (evs : List VoiceAgentEvent),
      toolScan (some s) (VoiceAgentEvent.stt_output t ts :: evs) = toolScan (some []) evs :=
    fun _ _ => rfl
  simp only [agentProcessEvent]
  rw [hstep]
  by_cases hg : isGreeting t
  · refine ⟨[], ?_⟩
    simp only [processTranscript, hg, if_true]
    rfl
  · simp only [processTranscript, hg, Bool.false_eq_true, if_false]
    obtain ⟨ids2, hscan⟩ :=
      toolScan_processMessages (f (agentTurnInvocation t)).msgs [] st (h2 _)
    refine ⟨ids2, ?_⟩
    rw [toolScan_append, hscan]
    rfl

theorem toolScan_agentStreamGo (f : AgentCall → AgentTurnStream) (tid : String)
    (h2 : ∀ c, wellFormedMsgs [] (f c).msgs = true) :
    ∀ input : List VoiceAgentEvent, (∀ e ∈ input, isSttEvent e = true) →
    ∀ (st : GenState) (seen : List String),
    ∃ ids2, toolScan (some seen) (agentStreamGo f tid st input) = some ids2 := by
  intro input
  induction input with
  | nil => intro _ st seen; exact ⟨seen, rfl⟩
  | cons e rest ih =>
    intro h1 st seen
    have hrest : ∀ x ∈ rest, isSttEvent x = true :=
      fun x hx => h1 x (List.mem_cons_of_mem e hx)
    have he : isSttEvent e = true := h1 e (List.mem_cons_self e rest)
    cases e with
    | stt_chunk t ts =>
      simp only [agentStreamGo, agentProcessEvent, List.singleton_append]
      exact ih hrest st seen
    | stt_output t ts =>
      simp only [agentStreamGo]
      rw [toolScan_append]
      obtain ⟨ids2, hturn⟩ := toolScan_turn f h2 t ts st seen
      rw [hturn]
      exact ih hrest _ ids2
    | agent_chunk t ts => simp [isSttEvent] at he
    | tool_call a b c d => simp [isSttEvent] at he
    | tool_result a b c d => simp [isSttEvent] at he
    | agent_end ts => simp [isSttEvent] at he
    | tts_chunk a b => simp [isSttEvent] at he

/-- C5, amended: the pairing invariant (every `tool_result`'s call id
matches exactly one earlier `tool_call` of the same turn, checked by
`toolScan`) holds provided the agent collaborator is well-formed: every
tool invocation intent carries an explicit, not-yet-used id, and every
tool result message names a call id matching exactly one earlier intent
of its turn.  (It does not hold unconditionally: see the recorded
counterexample, where the collaborator omits the ids and the stage pairs
a generated uuid with an empty result id.) -/
theorem tool_pairing_wellFormed (f : AgentCall → AgentTurnStream) (st : GenState)
    (input : List VoiceAgentEvent) (h1 : ∀ e ∈ input, isSttEvent e = true)
    (h2 : ∀ c, wellFormedMsgs [] (f c).msgs = true) :
    (toolScan (some []) (agentStreamRun f st input)).isSome = true := by
  obtain ⟨ids2, h⟩ := toolScan_agentStreamGo f (freshUuid st.uuidCtr) h2 input h1
    { st with uuidCtr := st.uuidCtr + 1 } []
  simp only [agentStreamRun]
  rw [h]
  rfl

theorem tool_pairing_wellFormed_witness :
    (toolScan (some [])
      (agentStreamRun
        (fun _ => ⟨[AgentMessage.ai ⟨"Adding that",
                      some [⟨some "call1", "add_to_order", "item:blt"⟩]⟩,
                    AgentMessage.tool ⟨some "call1", some "add_to_order", "ok"⟩], false⟩)
        ⟨0, 0⟩ [VoiceAgentEvent.stt_output "i want a blt" 0])).isSome = true :=
  tool_pairing_wellFormed
    (fun _ => ⟨[AgentMessage.ai ⟨"Adding that",
                  some [⟨some "call1", "add_to_order", "item:blt"⟩]⟩,
                AgentMessage.tool ⟨some "call1", some "add_to_order", "ok"⟩], false⟩)
    ⟨0, 0⟩ [VoiceAgentEvent.stt_output "i want a blt" 0]
    (by decide) (fun _ => rfl)

/-- C5, counterexample to the claim as stated: when the collaborator
omits the id on a tool invocation intent and the call id on the matching
tool result, the stage emits a `tool_call` carrying a freshly generated
uuid and a `tool_result` carrying the empty string, which matches no
earlier `tool_call` of the turn — the pairing scan fails. -/
theorem tool_pairing_counterexample :
    toolScan (some [])
      (agentStreamRun
        (fun _ => ⟨[AgentMessage.ai ⟨"", some [⟨none, "add_to_order", "item:blt"⟩]⟩,
                    AgentMessage.tool ⟨none, some "add_to_order", "ok"⟩], false⟩)
        ⟨0, 0⟩ [VoiceAgentEvent.stt_output "i want a blt" 0]) = none := by
  decide

/-- C6: the claim fails on the code.  At the failing input — a session
whose input channel is canceled with no audio sent and whose recognizer
emits no events — the `sttStream` producer does close the recognizer
exactly once, but no task of `sttStream` ever cancels its passthrough
queue (for no recognizer event trace), so under the Event Queue contract
the transcription stage's output never reaches end-of-stream; the agent
stage's loop therefore never ends, the synthesis producer never observes
end-of-input, and `tts.close()` is invoked zero times instead of once. -/
theorem drain_on_cancel_bug :
    (sttProducerVendorOps []).count STTVendorOp.close = 1 ∧
    sttOutputEnds [] = false ∧
    (∀ recognizerEvents : List VoiceAgentEvent,
       sttOutputEnds recognizerEvents = false) ∧
    ttsCloseCount (agentOutputEnds (sttOutputEnds [])) = 0 := by
  refine ⟨by decide, by decide, ?_, by decide⟩
  intro evs
  induction evs with
  | nil => rfl
  | cons e rest ih =>
    simp [sttOutputEnds, queueReachesEnd, sttPassthroughOps, List.any_cons] at ih ⊢
